import Mathlib

/-!
# Verification of the Huffman image compressor codec

Shallow embedding of `image_compressor.py` (class `ImageCompressor` and its
helper `HuffmanNode`).  Pixel intensity samples are `Nat` values (the program
stores them as unsigned 8-bit integers), bit strings of `'0'`/`'1'` characters
are `List Bool` (`false` = `'0'`, `true` = `'1'`), Python dictionaries are
insertion-ordered association lists, and the byte files written to disk are
`List Nat` with each element a byte value.  Fallible operations (uncaught
Python exceptions such as the `IndexError` raised by `heap[0]` on an empty
heap, the `KeyError` of a missing dictionary key, and the `ValueError` of a
mismatched `reshape`) are modelled with `Option`.
-/

namespace HuffmanCodec

/-- Model of `HuffmanNode` from the source: a leaf holds `value`, `freq`; an internal
node holds only the combined `freq` and its two children (`value=None`). -/
inductive Node where
  | leaf (value : Nat) (freq : Nat)
  | internal (freq : Nat) (left : Node) (right : Node)
deriving DecidableEq, Repr

instance : Inhabited Node := ⟨Node.leaf 0 0⟩

/-- The `freq` field of a node. -/
def Node.freq : Node → Nat
  | .leaf _ f => f
  | .internal f _ _ => f

/-- Leaf values of a tree, left to right. -/
def Node.leafValues : Node → List Nat
  | .leaf v _ => [v]
  | .internal _ l r => l.leafValues ++ r.leafValues

/-! ## Python dictionaries as insertion-ordered association lists -/

/-- Lookup in a Python dictionary: the value stored at key `k`, if present.
(Keys are unique in a dictionary, so first match suffices.) -/
def pyGet {α β : Type} [DecidableEq α] : List (α × β) → α → Option β
  | [], _ => none
  | (a, b) :: t, k => if a = k then some b else pyGet t k

/-- Assignment `d[k] = v` on a Python dictionary: overwrite in place if the key exists,
otherwise append at the end (insertion order). -/
def pySet {α β : Type} [DecidableEq α] : List (α × β) → α → β → List (α × β)
  | [], k, v => [(k, v)]
  | (a, b) :: t, k, v => if a = k then (k, v) :: t else (a, b) :: pySet t k v

/-! ## CPython `heapq` on a list of nodes

`heapq.heappush` / `heapq.heappop` from the Python standard library, as used
by `build_huffman_tree`.  Comparisons go through `HuffmanNode.__lt__`, which
compares the `freq` fields. -/

/-- CPython `heapq._siftdown(heap, startpos, pos)` with `newitem = heap[pos]` held in
a local variable, exactly as in CPython: walk parents down while `newitem`
is strictly smaller, then store `newitem`.  (`(pos - 1) / 2` is the parent
position local, inlined.) -/
def siftdown (heap : List Node) (startpos pos : Nat) (newitem : Node) : List Node :=
  if startpos < pos then
    if newitem.freq < (heap.getD ((pos - 1) / 2) default).freq then
      siftdown (heap.set pos (heap.getD ((pos - 1) / 2) default))
        startpos ((pos - 1) / 2) newitem
    else
      heap.set pos newitem
  else
    heap.set pos newitem
termination_by pos
decreasing_by
  simp_wf
  omega

/-- CPython `heapq.heappush(heap, item)`: append, then sift down from the last slot. -/
def heappush (heap : List Node) (item : Node) : List Node :=
  siftdown (heap ++ [item]) 0 heap.length item

/-- The child selection inside `heapq._siftup`: the right child is taken when
it exists and the left child is not strictly smaller. -/
def childSel (heap : List Node) (pos : Nat) : Nat :=
  if 2 * pos + 2 < heap.length ∧
      ¬ (heap.getD (2 * pos + 1) default).freq <
          (heap.getD (2 * pos + 2) default).freq then
    2 * pos + 2
  else
    2 * pos + 1

/-- The child-promoting loop of `heapq._siftup`: bubble the selected child up
into the hole at `pos` until a leaf position is reached; returns the array
with the hole moved to the returned position. -/
def siftupLoop (heap : List Node) (pos : Nat) : List Node × Nat :=
  if 2 * pos + 1 < heap.length then
    siftupLoop (heap.set pos (heap.getD (childSel heap pos) default)) (childSel heap pos)
  else
    (heap, pos)
termination_by heap.length - pos
decreasing_by
  simp_wf
  unfold childSel
  split <;> omega

/-- CPython `heapq._siftup(heap, pos)`: `newitem = heap[pos]`, move the hole to a
leaf, store `newitem` there, then sift it down towards `pos`. -/
def siftup (heap : List Node) (pos : Nat) : List Node :=
  siftdown ((siftupLoop heap pos).1.set (siftupLoop heap pos).2 (heap.getD pos default))
    pos (siftupLoop heap pos).2 (heap.getD pos default)

/-- CPython `heapq.heappop(heap)`: pop the last element; if the heap is still
non-empty, it replaces the root, which is sifted up.  `none` models the
`IndexError` of popping an empty heap. -/
def heappop (heap : List Node) : Option (Node × List Node) :=
  if heap.isEmpty then none
  else if heap.dropLast.isEmpty then
    some (heap.getLastD default, [])
  else
    some (heap.dropLast.getD 0 default,
      siftup (heap.dropLast.set 0 (heap.getLastD default)) 0)

/-! Length facts about the heap operations, needed to justify termination of
the tree-building loop. -/

theorem siftdown_length (heap : List Node) (s p : Nat) (x : Node) :
    (siftdown heap s p x).length = heap.length := by
  induction heap, s, p, x using siftdown.induct <;>
    (rw [siftdown]; split_ifs <;> simp_all [List.getD])

theorem siftupLoop_length (heap : List Node) (p : Nat) :
    (siftupLoop heap p).1.length = heap.length := by
  induction heap, p using siftupLoop.induct <;>
    (rw [siftupLoop]; split_ifs <;> simp_all [List.getD])

theorem siftup_length (heap : List Node) (p : Nat) :
    (siftup heap p).length = heap.length := by
  unfold siftup
  rw [siftdown_length]
  simp [siftupLoop_length]

theorem heappush_length (heap : List Node) (x : Node) :
    (heappush heap x).length = heap.length + 1 := by
  unfold heappush
  rw [siftdown_length]
  simp

theorem heappop_length (heap : List Node) (r : Node) (t : List Node)
    (h : heappop heap = some (r, t)) : t.length + 1 = heap.length := by
  unfold heappop at h
  split at h
  · exact absurd h (by simp)
  · rename_i hne
    split at h
    · rename_i hrest
      simp only [Option.some.injEq, Prod.mk.injEq] at h
      rcases h with ⟨-, h2⟩
      subst h2
      simp only [List.isEmpty_iff] at hne hrest
      have hd := List.length_dropLast heap
      rw [hrest] at hd
      have hpos : 0 < heap.length := List.length_pos.mpr hne
      simp only [List.length_nil] at hd ⊢
      omega
    · simp only [Option.some.injEq, Prod.mk.injEq] at h
      rcases h with ⟨-, h2⟩
      subst h2
      rw [siftup_length]
      simp only [List.isEmpty_iff] at hne
      have hpos : 0 < heap.length := List.length_pos.mpr hne
      simp only [List.length_set, List.length_dropLast]
      omega

/-- The merging loop of `build_huffman_tree`: while more than one node is on
the heap, pop the two smallest, merge them under a fresh internal node whose
frequency is the sum, and push the result. -/
def buildLoop (heap : List Node) : List Node :=
  if h : 1 < heap.length then
    match hp : heappop heap with
    | none => heap
    | some (left, h1) =>
      match hp2 : heappop h1 with
      | none => h1
      | some (right, h2) =>
        buildLoop (heappush h2 (.internal (left.freq + right.freq) left right))
  else
    heap
termination_by heap.length
decreasing_by
  have e1 := heappop_length heap left h1 hp
  have e2 := heappop_length h1 right h2 hp2
  rw [heappush_length]
  omega

/-- Model of `build_huffman_tree(frequencies)`: push a leaf per dictionary entry (in
insertion order), run the merging loop, and read `heap[0]`.  `none` models
the `IndexError` of `heap[0]` when the frequency table is empty. -/
def buildHuffmanTree (frequencies : List (Nat × Nat)) : Option Node :=
  (buildLoop (frequencies.foldl (fun h kv => heappush h (.leaf kv.1 kv.2)) [])).head?

/-! ## Frequency analysis, code generation, encoding -/

/-- Model of `calculate_frequencies(pixel_array)`: a `defaultdict(int)` incremented
once per pixel, so each key's value is its occurrence count and keys appear
in first-occurrence order. -/
def calculateFrequencies (pixels : List Nat) : List (Nat × Nat) :=
  pixels.foldl (fun d p => pySet d p ((pyGet d p).getD 0 + 1)) []

/-- Model of `generate_huffman_codes(node, code)`: depth-first traversal writing into
the instance dictionary `self.huffman_codes` (passed here explicitly); a left
edge appends bit `'0'` (`false`), a right edge `'1'` (`true`), and a leaf
stores the accumulated code under its value. -/
def generateCodes : Node → List Bool → List (Nat × List Bool) → List (Nat × List Bool)
  | .leaf v _, code, d => pySet d v code
  | .internal _ l r, code, d =>
    generateCodes r (code ++ [true]) (generateCodes l (code ++ [false]) d)

/-- The leaf/code pairs recorded by the traversal of `generate_huffman_codes`,
in visiting order (a specification-side view of the same recursion). -/
def codesList : Node → List Bool → List (Nat × List Bool)
  | .leaf v _, code => [(v, code)]
  | .internal _ l r, code =>
    codesList l (code ++ [false]) ++ codesList r (code ++ [true])

/-- Model of `encode_image(pixel_array)`: concatenate `self.huffman_codes[pixel]` over
the pixels; `none` models the `KeyError` of a pixel missing from the table. -/
def encodeImage (codes : List (Nat × List Bool)) (pixels : List Nat) :
    Option (List Bool) :=
  (pixels.mapM fun p => pyGet codes p).map List.flatten

/-! ## Bit packing -/

/-- Model of `int(byte_string, 2)`: value of a bit string read most significant
bit first. -/
def bitsToNat (bits : List Bool) : Nat :=
  bits.foldl (fun acc b => 2 * acc + (if b then 1 else 0)) 0

/-- Model of `format(byte, '08b')` generalized to width `w`: the `w`-character
most-significant-first binary rendering of `n` (`w = 8` for byte values). -/
def natToBits : Nat → Nat → List Bool
  | 0, _ => []
  | w + 1, n => natToBits w (n / 2) ++ [n % 2 == 1]

/-- The byte-building loop of `save_compressed`: take successive 8-character
slices of the padded bit string and convert each to a byte value. -/
def packBytes : List Bool → List Nat
  | [] => []
  | b :: rest =>
    bitsToNat ((b :: rest).take 8) :: packBytes ((b :: rest).drop 8)
termination_by bits => bits.length
decreasing_by
  simp only [List.length_drop, List.length_cons]
  omega

/-- Model of `save_compressed(encoded_data, codes, ...)`: compute the padding length
`8 - len % 8`, append that many `'0'` bits, pack into bytes, and lay out the
binary file as the padding-length byte followed by the data bytes.  Returns
the padding length and the full byte file. -/
def saveCompressed (encoded : List Bool) : Nat × List Nat :=
  (8 - encoded.length % 8,
    (8 - encoded.length % 8)
      :: packBytes (encoded ++ List.replicate (8 - encoded.length % 8) false))

/-! ## The compressor -/

/-- Result of one `compress` call: the persisted artifacts and the returned
stats.  `compressionPercent` is the source's `compression_ratio` value
(`compressed_bits / original_bits * 100`), modelled in `ℚ`. -/
structure CompressResult where
  binFile : List Nat
  codes : List (Nat × List Bool)
  originalBits : Nat
  compressedBits : Nat
  compressionPercent : ℚ
deriving DecidableEq, Repr

/-- Model of `ImageCompressor.compress` on an instance whose `self.huffman_codes`
currently holds `huffmanCodes` (a fresh instance holds `{}`): frequency
analysis, tree construction, code generation into the instance dictionary,
encoding, packing, and stats.  `none` models the uncaught exceptions of the
empty-input and missing-key paths. -/
def compressSt (huffmanCodes : List (Nat × List Bool)) (pixels : List Nat) :
    Option CompressResult :=
  match buildHuffmanTree (calculateFrequencies pixels) with
  | none => none
  | some tree =>
    match encodeImage (generateCodes tree [] huffmanCodes) pixels with
    | none => none
    | some encoded =>
      some
        { binFile := (saveCompressed encoded).2
          codes := generateCodes tree [] huffmanCodes
          originalBits := pixels.length * 8
          compressedBits := encoded.length
          compressionPercent := (encoded.length : ℚ) / (pixels.length * 8) * 100 }

/-- Model of `compress` on a fresh `ImageCompressor()` instance (`self.huffman_codes`
starts as the empty dictionary). -/
def compress (pixels : List Nat) : Option CompressResult :=
  compressSt [] pixels

/-! ## The decoder -/

/-- Reverse code table, `{v: k for k, v in codes.items()}`. -/
def revDict (codes : List (Nat × List Bool)) : List (List Bool × Nat) :=
  codes.foldl (fun r p => pySet r p.2 p.1) []

/-- The bit-walking loop of `decode_image`: extend the accumulated candidate
code one bit at a time and emit a symbol whenever it matches the reverse
table.  Returns the decoded symbols and the final (discarded) accumulator. -/
def decodeLoop (rev : List (List Bool × Nat)) :
    List Bool → List Bool → List Nat → List Nat × List Bool
  | [], cur, acc => (acc, cur)
  | b :: rest, cur, acc =>
    match pyGet rev (cur ++ [b]) with
    | some k => decodeLoop rev rest [] (acc ++ [k])
    | none => decodeLoop rev rest (cur ++ [b]) acc

/-- The bit-extraction steps of `decode_image`: `binary_data` is the
concatenation of the 8-bit renderings of the data bytes (all bytes after the
leading padding byte), and the last `padding_length` characters are sliced
off when the recorded padding is positive. -/
def extractBits (binFile : List Nat) : List Bool :=
  if binFile.headD 0 > 0 then
    (binFile.tail.flatMap fun byte => natToBits 8 byte).take
      ((binFile.tail.flatMap fun byte => natToBits 8 byte).length - binFile.headD 0)
  else
    binFile.tail.flatMap fun byte => natToBits 8 byte

/-- Model of `decode_image`: read the padding byte and the data bytes, expand and
slice the bit string (`extractBits`), walk the bits against the reverse code
table, cast the symbols to unsigned 8-bit values, and reshape to the original
dimensions.  `none` models the `ValueError` of `reshape` when the decoded
count differs from `expectedCount` (= height × width). -/
def decodeImage (binFile : List Nat) (codes : List (Nat × List Bool))
    (expectedCount : Nat) : Option (List Nat) :=
  if ((decodeLoop (revDict codes) (extractBits binFile) [] []).1.map
      (fun v => v % 256)).length = expectedCount then
    some ((decodeLoop (revDict codes) (extractBits binFile) [] []).1.map
      (fun v => v % 256))
  else
    none

/-! ## Multiset preservation of the heap operations

The sift operations shuffle array slots; what tree construction needs is
that pushing adds exactly the pushed node and popping removes exactly the
returned node.  We prove each sift is a permutation of a single `set`. -/

theorem getD_lt {α : Type} (l : List α) (i : Nat) (d : α) (h : i < l.length) :
    l.getD i d = l[i] := by
  simp [List.getD_eq_getElem?_getD, List.getElem?_eq_getElem h]

theorem count_set {α : Type} [DecidableEq α] (l : List α) (i : Nat)
    (h : i < l.length) (a b : α) :
    (l.set i a).count b + (if l[i] = b then 1 else 0)
      = l.count b + (if a = b then 1 else 0) := by
  induction l generalizing i with
  | nil => simp at h
  | cons c t ih =>
    cases i with
    | zero => simp [List.count_cons]; split_ifs <;> simp_all <;> omega
    | succ j =>
      simp only [List.set_cons_succ, List.count_cons, List.getElem_cons_succ,
        beq_iff_eq]
      have := ih j (by simpa using h)
      split_ifs at this ⊢ <;> omega

theorem set_swap_perm {α : Type} [DecidableEq α] (l : List α) (i j : Nat)
    (hi : i < l.length) (hj : j < l.length) (x : α) :
    ((l.set i (l[j])).set j x).Perm (l.set i x) := by
  rw [List.perm_iff_count]
  intro c
  have hj2 : j < (l.set i (l[j])).length := by simpa using hj
  have e1 := count_set l i hi (l[j]) c
  have e2 := count_set (l.set i (l[j])) j hj2 x c
  have e3 := count_set l i hi x c
  have hAj : (l.set i (l[j]))[j] = l[j] := by
    rw [List.getElem_set]
    split <;> simp_all
  rw [hAj] at e2
  split_ifs at e1 e2 e3 <;> omega

theorem set_getElem_self_eq {α : Type} (l : List α) (i : Nat) (h : i < l.length) :
    l.set i (l[i]) = l := by
  induction l generalizing i with
  | nil => simp at h
  | cons c t ih =>
    cases i with
    | zero => simp
    | succ j => simp [ih j (by simpa using h)]

theorem siftdown_perm (heap : List Node) (s p : Nat) (x : Node)
    (hp : p < heap.length) : (siftdown heap s p x).Perm (heap.set p x) := by
  induction heap, s, p, x using siftdown.induct with
  | case1 heap s p x h1 h2 ih =>
    rw [siftdown, if_pos h1, if_pos h2]
    have hpp : (p - 1) / 2 < heap.length := by omega
    have ih2 := ih (by simpa using Nat.lt_of_le_of_lt (by omega) hp)
    refine ih2.trans ?_
    rw [getD_lt heap ((p - 1) / 2) default hpp]
    exact set_swap_perm heap p ((p - 1) / 2) hp hpp x
  | case2 heap s p x h1 h2 =>
    rw [siftdown, if_pos h1, if_neg h2]
  | case3 heap s p x h1 =>
    rw [siftdown, if_neg h1]

theorem childSel_bounds (heap : List Node) (p : Nat) (h : 2 * p + 1 < heap.length) :
    p < childSel heap p ∧ childSel heap p < heap.length := by
  unfold childSel
  split <;> omega

theorem siftupLoop_spec (heap : List Node) (p : Nat) (hp : p < heap.length) :
    (∀ y, (((siftupLoop heap p).1.set (siftupLoop heap p).2 y)).Perm (heap.set p y))
      ∧ (siftupLoop heap p).2 < heap.length := by
  induction heap, p using siftupLoop.induct with
  | case1 heap p h1 ih =>
    obtain ⟨hgt, hlt⟩ := childSel_bounds heap p h1
    have hlen : (heap.set p (heap.getD (childSel heap p) default)).length = heap.length := by
      simp
    have ih2 := ih (by omega)
    rw [siftupLoop, if_pos h1]
    obtain ⟨ihperm, ihlt⟩ := ih2
    refine ⟨fun y => ?_, by omega⟩
    refine (ihperm y).trans ?_
    rw [getD_lt heap (childSel heap p) default hlt]
    exact set_swap_perm heap p (childSel heap p) hp hlt y
  | case2 heap p h1 =>
    rw [siftupLoop, if_neg h1]
    exact ⟨fun y => List.Perm.refl _, hp⟩

theorem siftup_perm (heap : List Node) (p : Nat) (hp : p < heap.length) :
    (siftup heap p).Perm heap := by
  unfold siftup
  obtain ⟨hperm, hlt⟩ := siftupLoop_spec heap p hp
  have hlen : (siftupLoop heap p).1.length = heap.length := siftupLoop_length heap p
  have h1 : ((siftupLoop heap p).1.set (siftupLoop heap p).2 (heap.getD p default)).length
      = heap.length := by simp [hlen]
  refine (siftdown_perm _ p (siftupLoop heap p).2 (heap.getD p default)
    (by omega)).trans ?_
  rw [List.set_set]
  refine (hperm (heap.getD p default)).trans ?_
  rw [getD_lt heap p default hp, set_getElem_self_eq heap p hp]

theorem heappush_perm (heap : List Node) (x : Node) :
    (heappush heap x).Perm (x :: heap) := by
  unfold heappush
  have hlt : heap.length < (heap ++ [x]).length := by simp
  refine (siftdown_perm (heap ++ [x]) 0 heap.length x hlt).trans ?_
  have : (heap ++ [x])[heap.length] = x := by
    rw [List.getElem_append_right (by omega)]
    simp
  rw [show (heap ++ [x]).set heap.length x
      = (heap ++ [x]).set heap.length ((heap ++ [x])[heap.length]) by rw [this],
    set_getElem_self_eq _ _ hlt]
  exact List.perm_append_singleton x heap

theorem heappop_none (heap : List Node) (h : heappop heap = none) : heap = [] := by
  unfold heappop at h
  split at h
  · simpa [List.isEmpty_iff] using ‹heap.isEmpty = true›
  · split at h <;> simp at h

theorem heappop_perm (heap : List Node) (r : Node) (t : List Node)
    (h : heappop heap = some (r, t)) : (r :: t).Perm heap := by
  unfold heappop at h
  split at h
  · simp at h
  · rename_i hne
    rw [List.isEmpty_iff] at hne
    split at h
    · rename_i hrest
      rw [List.isEmpty_iff] at hrest
      simp only [Option.some.injEq, Prod.mk.injEq] at h
      obtain ⟨h1, h2⟩ := h
      subst h1
      subst h2
      have hd := List.length_dropLast heap
      rw [hrest] at hd
      have hpos : 0 < heap.length := List.length_pos.mpr hne
      have hone : heap.length = 1 := by simp at hd; omega
      obtain ⟨a, rfl⟩ := List.length_eq_one.mp hone
      simp
    · rename_i hrest
      rw [List.isEmpty_iff] at hrest
      simp only [Option.some.injEq, Prod.mk.injEq] at h
      obtain ⟨h1, h2⟩ := h
      subst h1 h2
      have hrl : 0 < heap.dropLast.length := List.length_pos.mpr hrest
      have hperm := siftup_perm (heap.dropLast.set 0 (heap.getLastD default)) 0
        (by simpa using hrl)
      refine (List.Perm.cons _ hperm).trans ?_
      obtain ⟨c, cs, hcc⟩ := List.exists_cons_of_ne_nil hrest
      rw [hcc]
      simp only [List.getD_cons_zero, List.set_cons_zero]
      have hlast : heap.dropLast ++ [heap.getLastD default] = heap := by
        have hgl := List.dropLast_append_getLast hne
        rw [List.getLastD_eq_getLast?, List.getLast?_eq_getLast heap hne]
        exact hgl
      have hsw : (c :: heap.getLastD default :: cs).Perm
          (heap.getLastD default :: c :: cs) :=
        List.Perm.swap (heap.getLastD default) c cs
      have hap : (heap.getLastD default :: c :: cs).Perm
          ((c :: cs) ++ [heap.getLastD default]) :=
        (List.perm_append_singleton _ _).symm
      refine hsw.trans (hap.trans ?_)
      rw [← hcc, hlast]

/-! ## Leaves of the built tree

The merging loop preserves the multiset of leaf values spread over the heap,
so the final tree's leaves are exactly the keys of the frequency table. -/

theorem perm_flatMap {α β : Type} (f : α → List β) {l1 l2 : List α}
    (h : l1.Perm l2) : (l1.flatMap f).Perm (l2.flatMap f) := by
  induction h with
  | nil => simp
  | cons a h ih =>
    simp only [List.flatMap_cons]
    exact ih.append_left (f a)
  | swap a b l =>
    simp only [List.flatMap_cons]
    rw [← List.append_assoc, ← List.append_assoc]
    exact (List.perm_append_comm).append_right _
  | trans h1 h2 ih1 ih2 => exact ih1.trans ih2

theorem buildLoop_stop (heap : List Node) (h : ¬ 1 < heap.length) :
    buildLoop heap = heap := by
  rw [buildLoop, dif_neg h]

theorem buildLoop_merge (heap : List Node) (left : Node) (h1 : List Node)
    (right : Node) (h2 : List Node) (h : 1 < heap.length)
    (hp : heappop heap = some (left, h1)) (hp2 : heappop h1 = some (right, h2)) :
    buildLoop heap
      = buildLoop (heappush h2 (.internal (left.freq + right.freq) left right)) := by
  rw [buildLoop, dif_pos h]
  split
  · rename_i heq
    rw [heq] at hp
    cases hp
  · rename_i l' h1' heq
    rw [heq] at hp
    injection hp with hp
    injection hp with hpa hpb
    subst hpa
    subst hpb
    split
    · rename_i heq2
      rw [heq2] at hp2
      cases hp2
    · rename_i r' h2' heq2
      rw [heq2] at hp2
      injection hp2 with hp2
      injection hp2 with hpa2 hpb2
      subst hpa2
      subst hpb2
      rfl

theorem buildLoop_pops (heap : List Node) (h : 1 < heap.length) :
    ∃ left h1 right h2, heappop heap = some (left, h1)
      ∧ heappop h1 = some (right, h2) := by
  cases hp : heappop heap with
  | none =>
    have := heappop_none heap hp
    subst this
    simp at h
  | some p =>
    obtain ⟨left, h1⟩ := p
    have hl := heappop_length heap left h1 hp
    cases hp2 : heappop h1 with
    | none =>
      have := heappop_none h1 hp2
      subst this
      simp at hl
      omega
    | some q =>
      obtain ⟨right, h2⟩ := q
      exact ⟨left, h1, right, h2, rfl, hp2⟩

theorem buildLoop_leaves_aux (n : Nat) :
    ∀ heap : List Node, heap.length ≤ n →
      ((buildLoop heap).flatMap Node.leafValues).Perm
        (heap.flatMap Node.leafValues) := by
  induction n with
  | zero =>
    intro heap hle
    rw [buildLoop_stop heap (by omega)]
  | succ n ih =>
    intro heap hle
    by_cases h : 1 < heap.length
    · obtain ⟨left, h1, right, h2, hp, hp2⟩ := buildLoop_pops heap h
      have e1 := heappop_length heap left h1 hp
      have e2 := heappop_length h1 right h2 hp2
      rw [buildLoop_merge heap left h1 right h2 h hp hp2]
      have hlen : (heappush h2 (.internal (left.freq + right.freq) left right)).length ≤ n := by
        rw [heappush_length]
        omega
      refine (ih _ hlen).trans ?_
      have hpush := perm_flatMap Node.leafValues
        (heappush_perm h2 (.internal (left.freq + right.freq) left right))
      refine hpush.trans ?_
      have hpp1 := perm_flatMap Node.leafValues (heappop_perm heap left h1 hp)
      have hpp2 := perm_flatMap Node.leafValues (heappop_perm h1 right h2 hp2)
      simp only [List.flatMap_cons, Node.leafValues] at hpp1 hpp2 ⊢
      rw [List.append_assoc]
      exact (List.Perm.append_left left.leafValues hpp2).trans hpp1
    · rw [buildLoop_stop heap h]

theorem buildLoop_leaves (heap : List Node) :
    ((buildLoop heap).flatMap Node.leafValues).Perm
      (heap.flatMap Node.leafValues) :=
  buildLoop_leaves_aux heap.length heap le_rfl

theorem buildLoop_length_one_aux (n : Nat) :
    ∀ heap : List Node, heap.length ≤ n → heap ≠ [] →
      (buildLoop heap).length = 1 := by
  induction n with
  | zero =>
    intro heap hle hne
    have := List.length_pos.mpr hne
    omega
  | succ n ih =>
    intro heap hle hne
    by_cases h : 1 < heap.length
    · obtain ⟨left, h1, right, h2, hp, hp2⟩ := buildLoop_pops heap h
      have e1 := heappop_length heap left h1 hp
      have e2 := heappop_length h1 right h2 hp2
      rw [buildLoop_merge heap left h1 right h2 h hp hp2]
      refine ih _ ?_ ?_
      · rw [heappush_length]
        omega
      · intro hc
        have := congrArg List.length hc
        rw [heappush_length] at this
        simp at this
    · rw [buildLoop_stop heap h]
      have := List.length_pos.mpr hne
      omega

theorem buildLoop_length_one (heap : List Node) (h : heap ≠ []) :
    (buildLoop heap).length = 1 :=
  buildLoop_length_one_aux heap.length heap le_rfl h

theorem foldl_heappush_length (freqs : List (Nat × Nat)) (init : List Node) :
    (freqs.foldl (fun h kv => heappush h (.leaf kv.1 kv.2)) init).length
      = init.length + freqs.length := by
  induction freqs generalizing init with
  | nil => simp
  | cons kv t ih =>
    simp only [List.foldl_cons, List.length_cons]
    rw [ih, heappush_length]
    omega

theorem foldl_heappush_flatMap (freqs : List (Nat × Nat)) (init : List Node) :
    ((freqs.foldl (fun h kv => heappush h (.leaf kv.1 kv.2)) init).flatMap
        Node.leafValues).Perm
      (init.flatMap Node.leafValues ++ freqs.map Prod.fst) := by
  induction freqs generalizing init with
  | nil => simp
  | cons kv t ih =>
    simp only [List.foldl_cons, List.map_cons]
    refine (ih (heappush init (.leaf kv.1 kv.2))).trans ?_
    have h1 : ((heappush init (.leaf kv.1 kv.2)).flatMap Node.leafValues).Perm
        (kv.1 :: init.flatMap Node.leafValues) := by
      refine (perm_flatMap _ (heappush_perm init _)).trans ?_
      simp [Node.leafValues]
    refine (h1.append_right _).trans ?_
    exact List.perm_middle.symm

theorem buildHuffmanTree_eq_single (freqs : List (Nat × Nat)) (root : Node)
    (h : buildHuffmanTree freqs = some root) :
    buildLoop (freqs.foldl (fun h kv => heappush h (.leaf kv.1 kv.2)) []) = [root] := by
  unfold buildHuffmanTree at h
  set heap := freqs.foldl (fun h kv => heappush h (.leaf kv.1 kv.2)) [] with hheap
  have hne : heap ≠ [] := by
    intro hc
    rw [hc, buildLoop_stop [] (by simp)] at h
    simp at h
  have hlen := buildLoop_length_one heap hne
  obtain ⟨a, ha⟩ := List.length_eq_one.mp hlen
  rw [ha] at h ⊢
  simp at h
  rw [h]

theorem buildHuffmanTree_leaves (freqs : List (Nat × Nat)) (root : Node)
    (h : buildHuffmanTree freqs = some root) :
    root.leafValues.Perm (freqs.map Prod.fst) := by
  have hsingle := buildHuffmanTree_eq_single freqs root h
  have hl := buildLoop_leaves (freqs.foldl (fun h kv => heappush h (.leaf kv.1 kv.2)) [])
  rw [hsingle] at hl
  simp only [List.flatMap_cons, List.flatMap_nil, List.append_nil] at hl
  refine hl.trans ?_
  have := foldl_heappush_flatMap freqs []
  simpa using this

theorem buildHuffmanTree_isSome (freqs : List (Nat × Nat)) (h : freqs ≠ []) :
    ∃ root, buildHuffmanTree freqs = some root := by
  unfold buildHuffmanTree
  set heap := freqs.foldl (fun h kv => heappush h (.leaf kv.1 kv.2)) [] with hheap
  have hlen : heap.length = freqs.length := by
    rw [hheap, foldl_heappush_length]
    simp
  have hne : heap ≠ [] := by
    intro hc
    rw [hc] at hlen
    simp at hlen
    exact h (List.eq_nil_of_length_eq_zero hlen.symm)
  have h1 := buildLoop_length_one heap hne
  obtain ⟨a, ha⟩ := List.length_eq_one.mp h1
  exact ⟨a, by rw [ha]; rfl⟩

/-! ## Dictionary lemmas -/

theorem pyGet_pySet_self {α β : Type} [DecidableEq α] (d : List (α × β))
    (k : α) (v : β) : pyGet (pySet d k v) k = some v := by
  induction d with
  | nil => simp [pySet, pyGet]
  | cons p t ih =>
    obtain ⟨a, b⟩ := p
    by_cases h : a = k <;> simp [pySet, pyGet, h, ih]

theorem pyGet_pySet_ne {α β : Type} [DecidableEq α] (d : List (α × β))
    (k k' : α) (v : β) (h : k' ≠ k) :
    pyGet (pySet d k v) k' = pyGet d k' := by
  induction d with
  | nil => simp [pySet, pyGet, Ne.symm h]
  | cons p t ih =>
    obtain ⟨a, b⟩ := p
    by_cases ha : a = k
    · subst ha
      simp [pySet, pyGet, Ne.symm h]
    · simp [pySet, pyGet, ha, ih]

theorem pyGet_append {α β : Type} [DecidableEq α] (d1 d2 : List (α × β)) (k : α) :
    pyGet (d1 ++ d2) k = ((pyGet d1 k).or (pyGet d2 k)) := by
  induction d1 with
  | nil => simp [pyGet]
  | cons p t ih =>
    obtain ⟨a, b⟩ := p
    by_cases h : a = k <;> simp [pyGet, h, ih]

theorem pySet_of_none {α β : Type} [DecidableEq α] (d : List (α × β))
    (k : α) (v : β) (h : pyGet d k = none) : pySet d k v = d ++ [(k, v)] := by
  induction d with
  | nil => simp [pySet]
  | cons p t ih =>
    obtain ⟨a, b⟩ := p
    simp only [pyGet] at h
    by_cases ha : a = k
    · simp [ha] at h
    · simp only [pySet, if_neg ha, List.cons_append, List.cons.injEq, true_and]
      exact ih (by simpa [ha] using h)

theorem pyGet_isSome_iff {α β : Type} [DecidableEq α] (d : List (α × β)) (k : α) :
    (pyGet d k).isSome ↔ k ∈ d.map Prod.fst := by
  induction d with
  | nil => simp [pyGet]
  | cons p t ih =>
    obtain ⟨a, b⟩ := p
    simp only [pyGet, List.map_cons, List.mem_cons]
    by_cases h : a = k
    · subst h
      simp
    · simp [h, ih, Ne.symm h]

theorem pyGet_none_iff {α β : Type} [DecidableEq α] (d : List (α × β)) (k : α) :
    pyGet d k = none ↔ k ∉ d.map Prod.fst := by
  rw [← pyGet_isSome_iff]
  cases pyGet d k <;> simp

theorem pyGet_mem {α β : Type} [DecidableEq α] (d : List (α × β)) (k : α) (v : β)
    (h : pyGet d k = some v) : (k, v) ∈ d := by
  induction d with
  | nil => simp [pyGet] at h
  | cons p t ih =>
    obtain ⟨a, b⟩ := p
    by_cases ha : a = k
    · subst ha
      simp [pyGet] at h
      simp [h]
    · simp only [pyGet, if_neg ha] at h
      exact List.mem_cons_of_mem _ (ih h)

theorem pyGet_of_mem_nodup {α β : Type} [DecidableEq α] (d : List (α × β))
    (k : α) (v : β) (hnd : (d.map Prod.fst).Nodup) (h : (k, v) ∈ d) :
    pyGet d k = some v := by
  induction d with
  | nil => simp at h
  | cons p t ih =>
    obtain ⟨a, b⟩ := p
    simp only [List.map_cons, List.nodup_cons] at hnd
    rcases List.mem_cons.mp h with he | ht
    · injection he with h1 h2
      subst h1
      subst h2
      simp [pyGet]
    · have hak : a ≠ k := by
        intro hc
        subst hc
        exact hnd.1 (List.mem_map_of_mem Prod.fst ht)
      simp only [pyGet, if_neg hak]
      exact ih hnd.2 ht

theorem pySet_keys {α β : Type} [DecidableEq α] (d : List (α × β)) (k : α) (v : β) :
    (pySet d k v).map Prod.fst
      = if k ∈ d.map Prod.fst then d.map Prod.fst else d.map Prod.fst ++ [k] := by
  induction d with
  | nil => simp [pySet]
  | cons p t ih =>
    obtain ⟨a, b⟩ := p
    by_cases h : a = k
    · simp [pySet, h]
    · simp only [pySet, if_neg h, List.map_cons, ih]
      by_cases hm : k ∈ t.map Prod.fst <;> simp [hm, h, Ne.symm h]

theorem foldl_pySet_eq_append {α β : Type} [DecidableEq α] (ps : List (α × β)) :
    ∀ d : List (α × β), (ps.map Prod.fst).Nodup →
      (∀ k ∈ ps.map Prod.fst, pyGet d k = none) →
      ps.foldl (fun d p => pySet d p.1 p.2) d = d ++ ps := by
  induction ps with
  | nil => simp
  | cons p t ih =>
    intro d hnd hdisj
    obtain ⟨k, v⟩ := p
    simp only [List.map_cons, List.nodup_cons] at hnd
    simp only [List.foldl_cons]
    rw [pySet_of_none d k v (hdisj k (by simp))]
    rw [ih (d ++ [(k, v)]) hnd.2 ?_]
    · simp
    · intro k' hk'
      rw [pyGet_append]
      have h1 : pyGet d k' = none := hdisj k' (by simp [hk'])
      have h2 : k' ≠ k := by
        intro hc
        subst hc
        exact hnd.1 hk'
      simp [h1, pyGet, Ne.symm h2]

/-! ## Frequency table facts -/

theorem calcFreq_aux (S : List Nat) :
    ∀ d : List (Nat × Nat), (d.map Prod.fst).Nodup →
      ((S.foldl (fun d p => pySet d p ((pyGet d p).getD 0 + 1)) d).map Prod.fst).Nodup
      ∧ ∀ k, k ∈ (S.foldl (fun d p => pySet d p ((pyGet d p).getD 0 + 1)) d).map Prod.fst
          ↔ k ∈ d.map Prod.fst ∨ k ∈ S := by
  induction S with
  | nil => intro d hnd; simpa using hnd
  | cons p t ih =>
    intro d hnd
    simp only [List.foldl_cons]
    have hkeys := pySet_keys d p ((pyGet d p).getD 0 + 1)
    have hnd' : ((pySet d p ((pyGet d p).getD 0 + 1)).map Prod.fst).Nodup := by
      rw [hkeys]
      split_ifs
      · exact hnd
      · rename_i hnm
        rw [List.nodup_append]
        refine ⟨hnd, List.nodup_singleton p, ?_⟩
        intro a ha hb
        simp at hb
        subst hb
        exact hnm ha
    obtain ⟨ha, hb⟩ := ih (pySet d p ((pyGet d p).getD 0 + 1)) hnd'
    refine ⟨ha, fun k => ?_⟩
    rw [hb k, hkeys]
    split_ifs with hmem
    · constructor
      · rintro (h | h) <;> simp_all
      · rintro (h | h)
        · simp_all
        · rcases List.mem_cons.mp h with rfl | h2 <;> simp_all
    · constructor
      · rintro (h | h)
        · rcases List.mem_append.mp h with h2 | h2
          · exact Or.inl h2
          · simp at h2
            subst h2
            simp
        · simp [h]
      · rintro (h | h)
        · exact Or.inl (List.mem_append.mpr (Or.inl h))
        · rcases List.mem_cons.mp h with rfl | h2
          · exact Or.inl (by simp)
          · simp [h2]

theorem calculateFrequencies_keys_nodup (S : List Nat) :
    ((calculateFrequencies S).map Prod.fst).Nodup :=
  (calcFreq_aux S [] (by simp)).1

theorem calculateFrequencies_keys_mem (S : List Nat) (k : Nat) :
    k ∈ (calculateFrequencies S).map Prod.fst ↔ k ∈ S := by
  have := (calcFreq_aux S [] (by simp)).2 k
  simpa [calculateFrequencies] using this

theorem calculateFrequencies_nil_iff (S : List Nat) :
    calculateFrequencies S = [] ↔ S = [] := by
  constructor
  · intro h
    cases S with
    | nil => rfl
    | cons p t =>
      have := (calculateFrequencies_keys_mem (p :: t) p).mpr (by simp)
      rw [h] at this
      simp at this
  · intro h
    subst h
    rfl

/-! ## Code table structure -/

theorem codesList_map_fst (t : Node) (pre : List Bool) :
    (codesList t pre).map Prod.fst = t.leafValues := by
  induction t generalizing pre with
  | leaf v f => simp [codesList, Node.leafValues]
  | internal f l r ihl ihr => simp [codesList, Node.leafValues, ihl, ihr]

theorem codesList_extends (t : Node) (pre : List Bool) :
    ∀ p ∈ codesList t pre, ∃ suf, p.2 = pre ++ suf := by
  induction t generalizing pre with
  | leaf v f =>
    intro p hp
    simp [codesList] at hp
    subst hp
    exact ⟨[], by simp⟩
  | internal f l r ihl ihr =>
    intro p hp
    rcases List.mem_append.mp hp with h | h
    · obtain ⟨suf, hsuf⟩ := ihl (pre ++ [false]) p h
      exact ⟨false :: suf, by simp [hsuf]⟩
    · obtain ⟨suf, hsuf⟩ := ihr (pre ++ [true]) p h
      exact ⟨true :: suf, by simp [hsuf]⟩

theorem codesList_internal_extends (f : Nat) (l r : Node) (pre : List Bool) :
    ∀ p ∈ codesList (.internal f l r) pre, ∃ b suf, p.2 = pre ++ b :: suf := by
  intro p hp
  rcases List.mem_append.mp hp with h | h
  · obtain ⟨suf, hsuf⟩ := codesList_extends l (pre ++ [false]) p h
    exact ⟨false, suf, by simp [hsuf]⟩
  · obtain ⟨suf, hsuf⟩ := codesList_extends r (pre ++ [true]) p h
    exact ⟨true, suf, by simp [hsuf]⟩

theorem codesList_pairwise (t : Node) (pre : List Bool) :
    List.Pairwise (fun a b : Nat × List Bool => ¬ a.2 <+: b.2 ∧ ¬ b.2 <+: a.2)
      (codesList t pre) := by
  induction t generalizing pre with
  | leaf v f => simp [codesList]
  | internal f l r ihl ihr =>
    simp only [codesList, List.pairwise_append]
    refine ⟨ihl _, ihr _, ?_⟩
    intro a ha b hb
    obtain ⟨sa, hsa⟩ := codesList_extends l (pre ++ [false]) a ha
    obtain ⟨sb, hsb⟩ := codesList_extends r (pre ++ [true]) b hb
    rw [hsa, hsb]
    simp only [List.append_assoc, List.singleton_append]
    constructor
    · intro hc
      have := (List.prefix_append_right_inj pre).mp hc
      simp [List.cons_prefix_cons] at this
    · intro hc
      have := (List.prefix_append_right_inj pre).mp hc
      simp [List.cons_prefix_cons] at this

theorem generateCodes_eq_foldl (t : Node) (pre : List Bool)
    (d : List (Nat × List Bool)) :
    generateCodes t pre d
      = (codesList t pre).foldl (fun d p => pySet d p.1 p.2) d := by
  induction t generalizing pre d with
  | leaf v f => simp [generateCodes, codesList]
  | internal f l r ihl ihr =>
    simp [generateCodes, codesList, List.foldl_append, ihl, ihr]

theorem generateCodes_fresh (t : Node) (hnd : t.leafValues.Nodup) :
    generateCodes t [] [] = codesList t [] := by
  rw [generateCodes_eq_foldl]
  rw [foldl_pySet_eq_append (codesList t []) [] ?_ ?_]
  · simp
  · rw [codesList_map_fst]
    exact hnd
  · intro k hk
    simp [pyGet]

/-! ## Bit packing round trip -/

theorem bitsToNat_append_bit (bs : List Bool) (b : Bool) :
    bitsToNat (bs ++ [b]) = 2 * bitsToNat bs + (if b then 1 else 0) := by
  simp [bitsToNat, List.foldl_append]

theorem natToBits_bitsToNat (bs : List Bool) :
    natToBits bs.length (bitsToNat bs) = bs := by
  induction bs using List.reverseRecOn with
  | nil => rfl
  | append_singleton bs b ih =>
    rw [bitsToNat_append_bit]
    have hlen : (bs ++ [b]).length = bs.length + 1 := by simp
    rw [hlen]
    show natToBits bs.length ((2 * bitsToNat bs + (if b then 1 else 0)) / 2)
        ++ [decide ((2 * bitsToNat bs + (if b then 1 else 0)) % 2 = 1)] = bs ++ [b]
    have hdiv : (2 * bitsToNat bs + (if b then 1 else 0)) / 2 = bitsToNat bs := by
      cases b <;> simp <;> omega
    have hmod : (2 * bitsToNat bs + (if b then 1 else 0)) % 2
        = (if b then 1 else 0) := by
      cases b <;> simp [Nat.add_mul_mod_self_left] <;> omega
    rw [hdiv, hmod, ih]
    cases b <;> simp

theorem packBytes_unpack_aux (n : Nat) :
    ∀ bs : List Bool, bs.length ≤ n → bs.length % 8 = 0 →
      (packBytes bs).flatMap (fun byte => natToBits 8 byte) = bs := by
  induction n with
  | zero =>
    intro bs hle _
    have : bs = [] := List.eq_nil_of_length_eq_zero (by omega)
    subst this
    simp [packBytes]
  | succ n ih =>
    intro bs hle hmod
    cases bs with
    | nil => simp [packBytes]
    | cons b rest =>
      simp only [List.length_cons] at hle hmod
      have hlen8 : 8 ≤ rest.length + 1 := by omega
      rw [packBytes]
      simp only [List.flatMap_cons]
      have htake : ((b :: rest).take 8).length = 8 := by
        simp only [List.length_take, List.length_cons]
        omega
      have h1 : natToBits 8 (bitsToNat ((b :: rest).take 8)) = (b :: rest).take 8 := by
        have h2 := natToBits_bitsToNat ((b :: rest).take 8)
        rw [htake] at h2
        exact h2
      rw [h1, ih ((b :: rest).drop 8) ?_ ?_]
      · exact List.take_append_drop 8 (b :: rest)
      · simp only [List.length_drop, List.length_cons]
        omega
      · simp only [List.length_drop, List.length_cons]
        omega

theorem packBytes_unpack (bs : List Bool) (h : bs.length % 8 = 0) :
    (packBytes bs).flatMap (fun byte => natToBits 8 byte) = bs :=
  packBytes_unpack_aux bs.length bs le_rfl h

theorem packBytes_length_aux (n : Nat) :
    ∀ bs : List Bool, bs.length ≤ n → bs.length % 8 = 0 →
      (packBytes bs).length = bs.length / 8 := by
  induction n with
  | zero =>
    intro bs hle _
    have : bs = [] := List.eq_nil_of_length_eq_zero (by omega)
    subst this
    simp [packBytes]
  | succ n ih =>
    intro bs hle hmod
    cases bs with
    | nil => simp [packBytes]
    | cons b rest =>
      simp only [List.length_cons] at hle hmod
      have hlen8 : 8 ≤ rest.length + 1 := by omega
      rw [packBytes]
      simp only [List.length_cons]
      rw [ih ((b :: rest).drop 8) ?_ ?_]
      · simp only [List.length_drop, List.length_cons]
        omega
      · simp only [List.length_drop, List.length_cons]
        omega
      · simp only [List.length_drop, List.length_cons]
        omega

theorem packBytes_length (bs : List Bool) (h : bs.length % 8 = 0) :
    (packBytes bs).length = bs.length / 8 :=
  packBytes_length_aux bs.length bs le_rfl h

/-- The padded bit string built by `save_compressed` always has length a
multiple of 8, and the padding length is between 1 and 8. -/
theorem saveCompressed_padding (encoded : List Bool) :
    1 ≤ (saveCompressed encoded).1 ∧ (saveCompressed encoded).1 ≤ 8
      ∧ (encoded.length + (saveCompressed encoded).1) % 8 = 0 := by
  unfold saveCompressed
  dsimp only
  have h := Nat.mod_lt encoded.length (show 0 < 8 by omega)
  refine ⟨by omega, by omega, by omega⟩

/-- Unpacking the file written by `save_compressed` (expand the data bytes
and drop the recorded number of trailing padding bits) recovers exactly the
encoded bits: the padding and nothing else is discarded. -/
theorem extractBits_saveCompressed (encoded : List Bool) :
    extractBits (saveCompressed encoded).2 = encoded := by
  obtain ⟨h1, h2, h3⟩ := saveCompressed_padding encoded
  unfold extractBits
  unfold saveCompressed at h1 h2 h3 ⊢
  dsimp only at h1 h2 h3 ⊢
  simp only [List.tail_cons, List.headD_cons]
  rw [if_pos (by omega)]
  rw [packBytes_unpack _ (by simp only [List.length_append, List.length_replicate]; omega)]
  simp only [List.length_append, List.length_replicate]
  have heq : encoded.length + (8 - encoded.length % 8) - (8 - encoded.length % 8)
      = encoded.length := by omega
  rw [heq]
  rw [List.take_append_eq_append_take]
  simp

/-! ## Greedy decoder correctness

With a prefix-free reverse table, walking the bits of one codeword matches
exactly at its end, so decoding the concatenation of codewords recovers the
symbol sequence. -/

theorem decodeConsume (rev : List (List Bool × Nat)) (c : List Bool) (v : Nat)
    (hfind : pyGet rev c = some v)
    (hpref : ∀ p, p <+: c → p ≠ c → pyGet rev p = none) :
    ∀ q p, c = p ++ q → q ≠ [] → ∀ rest acc,
      decodeLoop rev (q ++ rest) p acc = decodeLoop rev rest [] (acc ++ [v]) := by
  intro q
  induction q with
  | nil =>
    intro p hc hq
    exact absurd rfl hq
  | cons b q' ih =>
    intro p hc _ rest acc
    rw [List.cons_append, decodeLoop]
    cases q' with
    | nil =>
      have hc2 : c = p ++ [b] := by simpa using hc
      rw [← hc2, hfind]
      simp
    | cons b2 q2 =>
      have hproper : p ++ [b] ≠ c := by
        intro hcontra
        have := congrArg List.length hcontra
        rw [hc] at this
        simp at this
      have hpr : (p ++ [b]) <+: c := ⟨b2 :: q2, by rw [hc]; simp⟩
      rw [hpref (p ++ [b]) hpr hproper]
      exact ih (p ++ [b]) (by rw [hc]; simp) (by simp) rest acc

theorem decodeLoop_flatMap (rev : List (List Bool × Nat)) (f : Nat → List Bool)
    (S : List Nat)
    (hprops : ∀ s ∈ S, pyGet rev (f s) = some s ∧ f s ≠ [] ∧
      ∀ p, p <+: f s → p ≠ f s → pyGet rev p = none) :
    ∀ acc, decodeLoop rev (S.flatMap f) [] acc = (acc ++ S, []) := by
  induction S with
  | nil =>
    intro acc
    simp [decodeLoop]
  | cons s S' ih =>
    intro acc
    obtain ⟨hf, hne, hp⟩ := hprops s (by simp)
    rw [List.flatMap_cons]
    rw [decodeConsume rev (f s) s hf hp (f s) [] (by simp) hne (S'.flatMap f) acc]
    rw [ih (fun x hx => hprops x (by simp [hx])) (acc ++ [s])]
    simp

/-! ## The reverse code table of a generated code list -/

theorem codesList_snd_nodup (t : Node) (pre : List Bool) :
    ((codesList t pre).map Prod.snd).Nodup := by
  have hp := codesList_pairwise t pre
  exact List.pairwise_map.mpr (hp.imp (fun h he => h.1 (by rw [he])))

theorem revDict_eq_swap (codes : List (Nat × List Bool))
    (hnd : (codes.map Prod.snd).Nodup) :
    revDict codes = codes.map (fun p => (p.2, p.1)) := by
  unfold revDict
  rw [show codes.foldl (fun r p => pySet r p.2 p.1) []
      = (codes.map (fun p => (p.2, p.1))).foldl (fun r q => pySet r q.1 q.2) [] by
    rw [List.foldl_map]]
  rw [foldl_pySet_eq_append _ [] ?_ ?_]
  · simp
  · rw [List.map_map]
    simpa [Function.comp] using hnd
  · intro k hk
    simp [pyGet]

theorem revDict_codesList_lookup (t : Node) (s : Nat) (c : List Bool)
    (h : (s, c) ∈ codesList t []) :
    pyGet (revDict (codesList t [])) c = some s := by
  rw [revDict_eq_swap _ (codesList_snd_nodup t [])]
  refine pyGet_of_mem_nodup _ c s ?_ ?_
  · rw [List.map_map]
    simpa [Function.comp] using codesList_snd_nodup t []
  · exact List.mem_map_of_mem _ h

theorem revDict_codesList_proper (t : Node) (s : Nat) (c : List Bool)
    (h : (s, c) ∈ codesList t []) (p : List Bool) (hpre : p <+: c) (hne : p ≠ c) :
    pyGet (revDict (codesList t [])) p = none := by
  cases hcase : pyGet (revDict (codesList t [])) p with
  | none => rfl
  | some s2 =>
    exfalso
    have hmem := pyGet_mem _ _ _ hcase
    rw [revDict_eq_swap _ (codesList_snd_nodup t [])] at hmem
    obtain ⟨q, hq, hqe⟩ := List.mem_map.mp hmem
    have hq2 : q.2 = p := congrArg Prod.fst hqe
    have hsym : Symmetric (fun a b : Nat × List Bool =>
        ¬ a.2 <+: b.2 ∧ ¬ b.2 <+: a.2) := fun a b hab => ⟨hab.2, hab.1⟩
    have hqnesc : q ≠ (s, c) := by
      intro hcontra
      rw [hcontra] at hq2
      exact hne hq2.symm
    have hforall := (codesList_pairwise t []).forall hsym
    have hR := hforall hq h hqnesc
    rw [hq2] at hR
    exact hR.1 hpre

/-! ## Encoding and the assembled compressor -/

theorem mapM_pyGet (codes : List (Nat × List Bool)) :
    ∀ S : List Nat, (∀ p ∈ S, (pyGet codes p).isSome) →
      S.mapM (fun p => pyGet codes p)
        = some (S.map (fun p => (pyGet codes p).getD [])) := by
  intro S
  induction S with
  | nil => intro _; rfl
  | cons a t ih =>
    intro h
    rw [List.mapM_cons]
    obtain ⟨c, hc⟩ := Option.isSome_iff_exists.mp (h a (by simp))
    rw [ih (fun p hp => h p (by simp [hp]))]
    simp [hc]

theorem encodeImage_eq_flatMap (codes : List (Nat × List Bool)) (S : List Nat)
    (h : ∀ p ∈ S, (pyGet codes p).isSome) :
    encodeImage codes S
      = some (S.flatMap (fun p => (pyGet codes p).getD [])) := by
  unfold encodeImage
  rw [mapM_pyGet codes S h]
  simp [List.flatMap_def]

theorem compressSt_some (d : List (Nat × List Bool)) (S : List Nat) (tree : Node)
    (ht : buildHuffmanTree (calculateFrequencies S) = some tree)
    (encoded : List Bool)
    (he : encodeImage (generateCodes tree [] d) S = some encoded) :
    compressSt d S = some
      { binFile := (saveCompressed encoded).2
        codes := generateCodes tree [] d
        originalBits := S.length * 8
        compressedBits := encoded.length
        compressionPercent := (encoded.length : ℚ) / (S.length * 8) * 100 } := by
  unfold compressSt
  rw [ht]
  dsimp only
  rw [he]

theorem compress_spec (S : List Nat) (hS : S ≠ []) :
    ∃ tree encoded out,
      buildHuffmanTree (calculateFrequencies S) = some tree
      ∧ tree.leafValues.Nodup
      ∧ (∀ v, v ∈ tree.leafValues ↔ v ∈ S)
      ∧ compress S = some out
      ∧ out.codes = codesList tree []
      ∧ encodeImage (codesList tree []) S = some encoded
      ∧ encoded = S.flatMap (fun p => (pyGet (codesList tree []) p).getD [])
      ∧ out.binFile = (saveCompressed encoded).2
      ∧ out.originalBits = S.length * 8
      ∧ out.compressedBits = encoded.length
      ∧ out.compressionPercent = (encoded.length : ℚ) / (S.length * 8) * 100 := by
  have hfreq_ne : calculateFrequencies S ≠ [] := by
    intro hc
    exact hS ((calculateFrequencies_nil_iff S).mp hc)
  obtain ⟨tree, ht⟩ := buildHuffmanTree_isSome (calculateFrequencies S) hfreq_ne
  have hleaves := buildHuffmanTree_leaves (calculateFrequencies S) tree ht
  have hnodup : tree.leafValues.Nodup :=
    (hleaves.nodup_iff).mpr (calculateFrequencies_keys_nodup S)
  have hmem : ∀ v, v ∈ tree.leafValues ↔ v ∈ S := by
    intro v
    rw [hleaves.mem_iff]
    exact calculateFrequencies_keys_mem S v
  have hfresh : generateCodes tree [] [] = codesList tree [] :=
    generateCodes_fresh tree hnodup
  have hcov : ∀ p ∈ S, (pyGet (codesList tree []) p).isSome := by
    intro p hp
    rw [pyGet_isSome_iff, codesList_map_fst]
    exact (hmem p).mpr hp
  have he := encodeImage_eq_flatMap (codesList tree []) S hcov
  refine ⟨tree, S.flatMap (fun p => (pyGet (codesList tree []) p).getD []),
    { binFile := (saveCompressed
        (S.flatMap (fun p => (pyGet (codesList tree []) p).getD []))).2
      codes := codesList tree []
      originalBits := S.length * 8
      compressedBits := (S.flatMap (fun p => (pyGet (codesList tree []) p).getD [])).length
      compressionPercent :=
        ((S.flatMap (fun p => (pyGet (codesList tree []) p).getD [])).length : ℚ)
          / (S.length * 8) * 100 },
    ht, hnodup, hmem, ?_, rfl, he, rfl, rfl, rfl, rfl, rfl⟩
  unfold compress
  rw [compressSt_some [] S tree ht _ (by rw [hfresh]; exact he)]
  rw [hfresh]

theorem map_mod256_eq (S : List Nat) (h : ∀ v ∈ S, v < 256) :
    S.map (fun v => v % 256) = S := by
  induction S with
  | nil => rfl
  | cons a t ih =>
    simp only [List.map_cons, List.cons.injEq]
    exact ⟨Nat.mod_eq_of_lt (h a (by simp)),
      ih (fun v hv => h v (by simp [hv]))⟩

/-- Round trip of the full pipeline for inputs holding at least two distinct
byte values: `decode_image` applied to the persisted binary file and code
table of `compress` recovers the pixel sequence exactly. -/
theorem decode_compress (S : List Nat) (hlt : ∀ v ∈ S, v < 256)
    (a b : Nat) (ha : a ∈ S) (hb : b ∈ S) (hab : a ≠ b) :
    ∃ out, compress S = some out
      ∧ decodeImage out.binFile out.codes S.length = some S := by
  have hS : S ≠ [] := by
    intro h
    subst h
    simp at ha
  obtain ⟨tree, encoded, out, ht, hnodup, hmem, hcomp, hcodes, he, hEeq, hbin,
    _, _, _⟩ := compress_spec S hS
  have hinternal : ∃ f0 l r, tree = Node.internal f0 l r := by
    cases tree with
    | leaf v f =>
      exfalso
      have hav : a = v := by simpa [Node.leafValues] using (hmem a).mpr ha
      have hbv : b = v := by simpa [Node.leafValues] using (hmem b).mpr hb
      exact hab (hav.trans hbv.symm)
    | internal f l r => exact ⟨f, l, r, rfl⟩
  refine ⟨out, hcomp, ?_⟩
  rw [hbin, hcodes]
  unfold decodeImage
  rw [extractBits_saveCompressed, hEeq]
  rw [decodeLoop_flatMap (revDict (codesList tree []))
    (fun p => (pyGet (codesList tree []) p).getD []) S ?_ []]
  · simp [map_mod256_eq S hlt]
  · intro s hs
    dsimp only
    have hcov : (pyGet (codesList tree []) s).isSome := by
      rw [pyGet_isSome_iff, codesList_map_fst]
      exact (hmem s).mpr hs
    obtain ⟨c, hc⟩ := Option.isSome_iff_exists.mp hcov
    have hm := pyGet_mem _ _ _ hc
    have hne : c ≠ [] := by
      obtain ⟨f0, l, r, rfl⟩ := hinternal
      obtain ⟨b', suf, hbs⟩ := codesList_internal_extends f0 l r [] (s, c) hm
      simp at hbs
      rw [hbs]
      simp
    refine ⟨?_, ?_, ?_⟩
    · rw [hc]
      simp only [Option.getD_some]
      exact revDict_codesList_lookup tree s c hm
    · rw [hc]
      simpa using hne
    · intro p hpre hpne
      rw [hc] at hpre hpne
      simp only [Option.getD_some] at hpre hpne
      exact revDict_codesList_proper tree s c hm p hpre hpne

/-! ## The stateful compressor: `self.huffman_codes` across calls -/

theorem foldl_pySet_isSome_of_isSome {α β : Type} [DecidableEq α]
    (ps : List (α × β)) :
    ∀ d : List (α × β), ∀ k : α, (pyGet d k).isSome →
      (pyGet (ps.foldl (fun d p => pySet d p.1 p.2) d) k).isSome := by
  induction ps with
  | nil => intro d k h; simpa using h
  | cons p t ih =>
    intro d k h
    simp only [List.foldl_cons]
    refine ih (pySet d p.1 p.2) k ?_
    by_cases hk : k = p.1
    · subst hk
      rw [pyGet_pySet_self]
      rfl
    · rw [pyGet_pySet_ne d p.1 k p.2 hk]
      exact h

theorem foldl_pySet_isSome_of_mem {α β : Type} [DecidableEq α]
    (ps : List (α × β)) :
    ∀ d : List (α × β), ∀ k : α, k ∈ ps.map Prod.fst →
      (pyGet (ps.foldl (fun d p => pySet d p.1 p.2) d) k).isSome := by
  induction ps with
  | nil => intro d k h; simp at h
  | cons p t ih =>
    intro d k h
    simp only [List.foldl_cons]
    rcases List.mem_cons.mp h with he | ht
    · subst he
      refine foldl_pySet_isSome_of_isSome t (pySet d p.1 p.2) p.1 ?_
      rw [pyGet_pySet_self]
      rfl
    · exact ih (pySet d p.1 p.2) k ht

theorem generateCodes_covers (tree : Node) (d : List (Nat × List Bool)) (p : Nat)
    (hp : p ∈ tree.leafValues) :
    (pyGet (generateCodes tree [] d) p).isSome := by
  rw [generateCodes_eq_foldl]
  refine foldl_pySet_isSome_of_mem (codesList tree []) d p ?_
  rw [codesList_map_fst]
  exact hp

theorem generateCodes_stale (tree : Node) (d : List (Nat × List Bool)) (k : Nat)
    (h : (pyGet d k).isSome) :
    (pyGet (generateCodes tree [] d) k).isSome := by
  rw [generateCodes_eq_foldl]
  exact foldl_pySet_isSome_of_isSome (codesList tree []) d k h

theorem compressSt_spec (d : List (Nat × List Bool)) (S : List Nat) (hS : S ≠ []) :
    ∃ tree encoded out,
      buildHuffmanTree (calculateFrequencies S) = some tree
      ∧ compressSt d S = some out
      ∧ out.codes = generateCodes tree [] d
      ∧ encodeImage (generateCodes tree [] d) S = some encoded
      ∧ out.binFile = (saveCompressed encoded).2
      ∧ out.originalBits = S.length * 8
      ∧ out.compressedBits = encoded.length
      ∧ out.compressionPercent = (encoded.length : ℚ) / (S.length * 8) * 100 := by
  have hfreq_ne : calculateFrequencies S ≠ [] := by
    intro hc
    exact hS ((calculateFrequencies_nil_iff S).mp hc)
  obtain ⟨tree, ht⟩ := buildHuffmanTree_isSome (calculateFrequencies S) hfreq_ne
  have hleaves := buildHuffmanTree_leaves (calculateFrequencies S) tree ht
  have hmem : ∀ v, v ∈ tree.leafValues ↔ v ∈ S := by
    intro v
    rw [hleaves.mem_iff]
    exact calculateFrequencies_keys_mem S v
  have hcov : ∀ p ∈ S, (pyGet (generateCodes tree [] d) p).isSome := by
    intro p hp
    exact generateCodes_covers tree d p ((hmem p).mpr hp)
  have he := encodeImage_eq_flatMap (generateCodes tree [] d) S hcov
  exact ⟨tree, _, _, ht, compressSt_some d S tree ht _ he, rfl, he, rfl, rfl, rfl, rfl⟩

/-! ## Concrete runs of the pipeline

Flat (single-valued) images exercise the single-leaf corner of the codec;
these evaluations are shared by several claim theorems below. -/

theorem eval_tree7 : buildHuffmanTree [(7, 1)] = some (.leaf 7 1) := by
  have h1 : heappush [] (Node.leaf 7 1) = [Node.leaf 7 1] := by
    simp [heappush, siftdown]
  unfold buildHuffmanTree
  rw [show [(7, 1)].foldl (fun h kv => heappush h (Node.leaf kv.1 kv.2)) []
      = heappush [] (Node.leaf 7 1) from rfl]
  rw [h1, buildLoop_stop _ (by simp)]
  rfl

theorem eval_tree7x4 : buildHuffmanTree [(7, 4)] = some (.leaf 7 4) := by
  have h1 : heappush [] (Node.leaf 7 4) = [Node.leaf 7 4] := by
    simp [heappush, siftdown]
  unfold buildHuffmanTree
  rw [show [(7, 4)].foldl (fun h kv => heappush h (Node.leaf kv.1 kv.2)) []
      = heappush [] (Node.leaf 7 4) from rfl]
  rw [h1, buildLoop_stop _ (by simp)]
  rfl

theorem eval_tree9 : buildHuffmanTree [(9, 1)] = some (.leaf 9 1) := by
  have h1 : heappush [] (Node.leaf 9 1) = [Node.leaf 9 1] := by
    simp [heappush, siftdown]
  unfold buildHuffmanTree
  rw [show [(9, 1)].foldl (fun h kv => heappush h (Node.leaf kv.1 kv.2)) []
      = heappush [] (Node.leaf 9 1) from rfl]
  rw [h1, buildLoop_stop _ (by simp)]
  rfl

set_option maxRecDepth 2000 in
theorem eval_save_nil : saveCompressed [] = (8, [8, 0]) := by
  simp [saveCompressed, List.replicate, packBytes, bitsToNat]

theorem compress7 :
    compress [7] = some
      { binFile := [8, 0]
        codes := [(7, [])]
        originalBits := 8
        compressedBits := 0
        compressionPercent := 0 } := by
  have h := compressSt_some [] [7] (.leaf 7 1)
    (by rw [show calculateFrequencies [7] = [(7, 1)] from rfl]; exact eval_tree7) [] rfl
  unfold compress
  rw [h, eval_save_nil]
  norm_num
  rfl

theorem compress7x4 :
    compress [7, 7, 7, 7] = some
      { binFile := [8, 0]
        codes := [(7, [])]
        originalBits := 32
        compressedBits := 0
        compressionPercent := 0 } := by
  have h := compressSt_some [] [7, 7, 7, 7] (.leaf 7 4)
    (by rw [show calculateFrequencies [7, 7, 7, 7] = [(7, 4)] from rfl]
        exact eval_tree7x4) [] rfl
  unfold compress
  rw [h, eval_save_nil]
  norm_num
  rfl

theorem compress9st :
    compressSt [] [9] = some
      { binFile := [8, 0]
        codes := [(9, [])]
        originalBits := 8
        compressedBits := 0
        compressionPercent := 0 } := by
  have h := compressSt_some [] [9] (.leaf 9 1)
    (by rw [show calculateFrequencies [9] = [(9, 1)] from rfl]; exact eval_tree9) [] rfl
  rw [h, eval_save_nil]
  norm_num
  rfl

theorem compress7st_after9 :
    compressSt [(9, [])] [7] = some
      { binFile := [8, 0]
        codes := [(9, []), (7, [])]
        originalBits := 8
        compressedBits := 0
        compressionPercent := 0 } := by
  have h := compressSt_some [(9, [])] [7] (.leaf 7 1)
    (by rw [show calculateFrequencies [7] = [(7, 1)] from rfl]; exact eval_tree7) [] rfl
  rw [h, eval_save_nil]
  norm_num
  rfl

/-! ## Claim theorems -/

/-- C1, counterexample to the claim as stated: for the length-1 sequence
`[7]` (one distinct value), `compress` succeeds but decoding its output does
not reconstruct `[7]` — the single leaf receives the empty code, zero data
bits are written, and decoding yields no symbols, so the reshape check
fails.  The round trip is therefore not exact for every `S` with
`len(S) ≥ 1`. -/
theorem c1_roundtrip_counterexample :
    (compress [7]).isSome = true
      ∧ ((compress [7]).bind fun o => decodeImage o.binFile o.codes 1) = none := by
  rw [compress7]
  exact ⟨rfl, by decide⟩

/-- C1 (amended): for every sample sequence over the alphabet `[0,255]` that
contains at least two distinct values, decompressing the output of
`compress` (the packed bytes with the padding length recorded in the first
payload byte, together with the persisted codebook) reconstructs the
sequence exactly.  (Sequences with a single distinct value fail, see the
counterexample.) -/
theorem c1_roundtrip (S : List Nat) (hlt : ∀ v ∈ S, v < 256)
    (a b : Nat) (ha : a ∈ S) (hb : b ∈ S) (hab : a ≠ b) :
    ∃ out, compress S = some out
      ∧ decodeImage out.binFile out.codes S.length = some S :=
  decode_compress S hlt a b ha hb hab

/-- C1, witness: the amended round trip at the concrete input `[0,0,1]`. -/
theorem c1_roundtrip_witness :
    (∀ v ∈ [0, 0, 1], v < 256)
      ∧ ∃ out, compress [0, 0, 1] = some out
          ∧ decodeImage out.binFile out.codes 3 = some [0, 0, 1] :=
  ⟨by decide, c1_roundtrip [0, 0, 1] (by decide) 0 1 (by decide) (by decide) (by decide)⟩

/-- C2: on the flat image `[7,7,7,7]` the code generation step records the
empty string (not a non-empty code such as `"0"`) for the single symbol, the
encoded stream is empty, and the round trip fails — contradicting the spec's
requirement that the single-symbol case receive a non-empty code and
round-trip correctly.  The spec documents the intent; the code is wrong. -/
theorem c2_flat_image_empty_code :
    (compress [7, 7, 7, 7]).isSome = true
      ∧ ((compress [7, 7, 7, 7]).map fun o => pyGet o.codes 7) = some (some [])
      ∧ ((compress [7, 7, 7, 7]).bind fun o => decodeImage o.binFile o.codes 4) = none := by
  rw [compress7x4]
  refine ⟨rfl, by decide, by decide⟩

/-- C3: for every non-empty frequency table (a dictionary, so its keys are
distinct), tree construction succeeds and the generated code table assigns
exactly one code to every symbol of the table (and no other symbol), and no
code in it is a prefix of a different symbol's code. -/
theorem c3_codebook_total_and_prefix_free (freqs : List (Nat × Nat))
    (hne : freqs ≠ []) (hnd : (freqs.map Prod.fst).Nodup) :
    ∃ tree, buildHuffmanTree freqs = some tree
      ∧ (∀ k, k ∈ freqs.map Prod.fst ↔ (pyGet (generateCodes tree [] []) k).isSome)
      ∧ ((generateCodes tree [] []).map Prod.fst).Nodup
      ∧ (∀ s c t d, (s, c) ∈ generateCodes tree [] []
          → (t, d) ∈ generateCodes tree [] [] → s ≠ t → ¬ c <+: d) := by
  obtain ⟨tree, ht⟩ := buildHuffmanTree_isSome freqs hne
  have hleaves := buildHuffmanTree_leaves freqs tree ht
  have hnodup : tree.leafValues.Nodup := (hleaves.nodup_iff).mpr hnd
  have hfresh : generateCodes tree [] [] = codesList tree [] :=
    generateCodes_fresh tree hnodup
  refine ⟨tree, ht, ?_, ?_, ?_⟩
  · intro k
    rw [hfresh, pyGet_isSome_iff, codesList_map_fst, hleaves.mem_iff]
  · rw [hfresh, codesList_map_fst]
    exact hnodup
  · intro s c t d hsc htd hst
    rw [hfresh] at hsc htd
    have hsym : Symmetric (fun a b : Nat × List Bool =>
        ¬ a.2 <+: b.2 ∧ ¬ b.2 <+: a.2) := fun a b hab => ⟨hab.2, hab.1⟩
    have hne2 : (s, c) ≠ (t, d) := by
      intro hcontra
      injection hcontra with h1 _
      exact hst h1
    exact (((codesList_pairwise tree []).forall hsym) hsc htd hne2).1

/-- C3, witness: the code table of the two-symbol frequency table
`{0: 1, 1: 2}`. -/
theorem c3_codebook_witness :
    ([((0 : Nat), (1 : Nat)), (1, 2)] ≠ []
        ∧ ([((0 : Nat), (1 : Nat)), (1, 2)].map Prod.fst).Nodup)
      ∧ ∃ tree, buildHuffmanTree [(0, 1), (1, 2)] = some tree
        ∧ (∀ k, k ∈ [((0 : Nat), (1 : Nat)), (1, 2)].map Prod.fst
            ↔ (pyGet (generateCodes tree [] []) k).isSome)
        ∧ ((generateCodes tree [] []).map Prod.fst).Nodup
        ∧ (∀ s c t d, (s, c) ∈ generateCodes tree [] []
            → (t, d) ∈ generateCodes tree [] [] → s ≠ t → ¬ c <+: d) :=
  ⟨⟨by decide, by decide⟩,
    c3_codebook_total_and_prefix_free [(0, 1), (1, 2)] (by decide) (by decide)⟩

/-- C4: for a bit sequence whose length is a multiple of 8 (such as 16), the
padding length `8 - (len % 8)` computed by `save_compressed` is 8 — a full
extra byte of zero padding — and the decode-side bit extraction with that
recorded padding length discards exactly the padding and returns the
original bits. -/
theorem c4_padding_byte_aligned (bits : List Bool) (h : bits.length % 8 = 0) :
    (saveCompressed bits).1 = 8 ∧ extractBits (saveCompressed bits).2 = bits := by
  constructor
  · unfold saveCompressed
    dsimp only
    omega
  · exact extractBits_saveCompressed bits

/-- C4, witness: the 16-bit all-zero sequence. -/
theorem c4_padding_witness :
    (List.replicate 16 false).length % 8 = 0
      ∧ ((saveCompressed (List.replicate 16 false)).1 = 8
        ∧ extractBits (saveCompressed (List.replicate 16 false)).2
          = List.replicate 16 false) :=
  ⟨by decide, c4_padding_byte_aligned (List.replicate 16 false) (by decide)⟩

/-- C5, counterexample to the claim as stated: decoding the file `[5, 32]`
(3 data bits `001`) against the table `{0: "0", 1: "11"}` exhausts the bit
sequence with the non-empty unmatched accumulator `"1"`, yet no
error is signalled: the loop silently discards the accumulator and
`decode_image` returns the two matched symbols. -/
theorem c5_truncation_counterexample :
    decodeLoop (revDict [(0, [false]), (1, [true, true])])
        [false, false, true] [] [] = ([0, 0], [true])
      ∧ decodeImage [5, 32] [(0, [false]), (1, [true, true])] 2 = some [0, 0] := by
  exact ⟨by decide, by decide⟩

/-- C5 (amended): the decoder never signals a dedicated truncation error —
a non-empty unmatched accumulator is silently dropped — but `decode_image`
cannot silently return a sequence of the wrong length: whenever it returns
successfully, the decoded sequence has exactly the expected pixel count
(any disagreement surfaces as the `reshape` failure, modelled as `none`). -/
theorem c5_decode_length (binFile : List Nat) (codes : List (Nat × List Bool))
    (n : Nat) (out : List Nat) (h : decodeImage binFile codes n = some out) :
    out.length = n := by
  unfold decodeImage at h
  split at h
  · rename_i hc
    injection h with h2
    rw [← h2]
    exact hc
  · exact absurd h (by simp)

/-- C5, witness: the successful decode of `[5, 32]` returns exactly the
expected 2 symbols. -/
theorem c5_decode_length_witness :
    decodeImage [5, 32] [(0, [false]), (1, [true, true])] 2 = some [0, 0]
      ∧ ([0, 0] : List Nat).length = 2 :=
  ⟨by decide, c5_decode_length [5, 32] [(0, [false]), (1, [true, true])] 2 [0, 0] (by decide)⟩

/-- C6: compressing an empty sample sequence fails — the frequency table is
empty, no node is ever pushed, and reading `heap[0]` raises (modelled as
`none`), so no output is produced.  (In the Python source the failure is an
uncaught `IndexError`; the spec's name for this failure condition is
`EmptyInputError`.) -/
theorem c6_empty_input_fails : compress [] = none := by
  simp [compress, compressSt, calculateFrequencies, buildHuffmanTree, buildLoop]

/-- C7: `compress` is a pure function of the pixel sequence — two runs on
identical input produce identical results, in particular an identical
persisted code table and identical packed bytes.  (The embedding is
deterministic because CPython's `heapq` and insertion-ordered dictionaries
are.) -/
theorem c7_deterministic (S₁ S₂ : List Nat) (h : S₁ = S₂) :
    compress S₁ = compress S₂
      ∧ (compress S₁).map (fun o => o.codes) = (compress S₂).map (fun o => o.codes)
      ∧ (compress S₁).map (fun o => o.binFile)
        = (compress S₂).map (fun o => o.binFile) := by
  subst h
  exact ⟨rfl, rfl, rfl⟩

/-- C7, witness: two runs on the input `[5]`. -/
theorem c7_deterministic_witness :
    ([5] : List Nat) = [5]
      ∧ (compress [5] = compress [5]
        ∧ (compress [5]).map (fun o => o.codes) = (compress [5]).map (fun o => o.codes)
        ∧ (compress [5]).map (fun o => o.binFile)
          = (compress [5]).map (fun o => o.binFile)) :=
  ⟨rfl, c7_deterministic [5] [5] rfl⟩

/-- C8, counterexample to the claim as stated: the same input `[7]`
compressed on a fresh instance persists the codebook `{7: ""}`, but
compressed on an instance that previously compressed `[9]` persists
`{9: "", 7: ""}` — `self.huffman_codes` is never cleared, so the persisted
codebook depends on earlier calls, not only on the call's input. -/
theorem c8_shared_state_counterexample :
    ((compressSt [] [9]).bind fun o1 => compressSt o1.codes [7]).map (fun o => o.codes)
        = some [(9, []), (7, [])]
      ∧ (compress [7]).map (fun o => o.codes) = some [(7, [])] := by
  constructor
  · rw [compress9st]
    show (compressSt [(9, [])] [7]).map (fun o => o.codes) = some [(9, []), (7, [])]
    rw [compress7st_after9]
    rfl
  · rw [compress7]
    rfl

/-- C8 (amended): `compress` is stateful across calls on one instance: every
key already present in the instance's `self.huffman_codes` before the call is
still present in the codebook persisted by the call, even if the symbol does
not occur in the current input.  (The CLI constructs a fresh instance per
operation, so the stale entries do not arise there.) -/
theorem c8_stale_keys_persist (d : List (Nat × List Bool)) (S : List Nat)
    (k : Nat) (hd : (pyGet d k).isSome) (hS : S ≠ []) :
    ∃ out, compressSt d S = some out ∧ (pyGet out.codes k).isSome := by
  obtain ⟨tree, encoded, out, _, hcomp, hcodes, _, _, _, _, _⟩ := compressSt_spec d S hS
  refine ⟨out, hcomp, ?_⟩
  rw [hcodes]
  exact generateCodes_stale tree d k hd

/-- C8, witness: a stale entry for symbol 9 survives a compress call on
`[7]`. -/
theorem c8_stale_keys_witness :
    ((pyGet [((9 : Nat), ([] : List Bool))] 9).isSome ∧ ([7] : List Nat) ≠ [])
      ∧ ∃ out, compressSt [(9, [])] [7] = some out ∧ (pyGet out.codes 9).isSome :=
  ⟨⟨by decide, by decide⟩, c8_stale_keys_persist [(9, [])] [7] 9 (by decide) (by decide)⟩

/-- C9: for every non-empty input the stats returned by `compress` satisfy:
original bits = sample count × 8, compressed bits = the length of the
unpadded encoded bit sequence (the concatenation of per-pixel codes, before
padding), and the compression ratio = compressed bits / original bits
× 100. -/
theorem c9_stats (S : List Nat) (hS : S ≠ []) :
    ∃ encoded out, compress S = some out
      ∧ encodeImage out.codes S = some encoded
      ∧ out.originalBits = S.length * 8
      ∧ out.compressedBits = encoded.length
      ∧ out.compressionPercent
        = (out.compressedBits : ℚ) / (out.originalBits : ℚ) * 100 := by
  obtain ⟨tree, encoded, out, _, _, _, hcomp, hcodes, he, _, hbin, hob, hcb, hpct⟩ :=
    compress_spec S hS
  refine ⟨encoded, out, hcomp, ?_, hob, hcb, ?_⟩
  · rw [hcodes]
    exact he
  · rw [hpct, hcb, hob]
    push_cast
    ring

/-- C9, witness: the stats of compressing `[7]`. -/
theorem c9_stats_witness :
    ([7] : List Nat) ≠ []
      ∧ ∃ encoded out, compress [7] = some out
        ∧ encodeImage out.codes [7] = some encoded
        ∧ out.originalBits = 8
        ∧ out.compressedBits = encoded.length
        ∧ out.compressionPercent
          = (out.compressedBits : ℚ) / (out.originalBits : ℚ) * 100 :=
  ⟨by decide, c9_stats [7] (by decide)⟩

/-- C10: on every successful compress run, the padding length written as the
first byte of the binary payload is between 1 and 8 (never 0: at least one
padding bit is always appended), and the payload after the padding byte
holds exactly `floor(encodedBitLength / 8) + 1` data bytes. -/
theorem c10_payload_shape (S : List Nat) (hS : S ≠ []) :
    ∃ out, compress S = some out
      ∧ 1 ≤ out.binFile.headD 0
      ∧ out.binFile.headD 0 ≤ 8
      ∧ out.binFile.length = 1 + (out.compressedBits / 8 + 1) := by
  obtain ⟨tree, encoded, out, _, _, _, hcomp, _, _, _, hbin, _, hcb, _⟩ :=
    compress_spec S hS
  obtain ⟨h1, h2, h3⟩ := saveCompressed_padding encoded
  refine ⟨out, hcomp, ?_, ?_, ?_⟩
  · rw [hbin]
    unfold saveCompressed at h1 ⊢
    dsimp only at h1 ⊢
    simpa using h1
  · rw [hbin]
    unfold saveCompressed at h2 ⊢
    dsimp only at h2 ⊢
    simpa using h2
  · rw [hbin, hcb]
    unfold saveCompressed
    dsimp only
    rw [List.length_cons]
    rw [packBytes_length _ (by simp only [List.length_append, List.length_replicate]; omega)]
    simp only [List.length_append, List.length_replicate]
    omega

/-- C10, witness: the payload shape of compressing `[7]`. -/
theorem c10_payload_witness :
    ([7] : List Nat) ≠ []
      ∧ ∃ out, compress [7] = some out
        ∧ 1 ≤ out.binFile.headD 0
        ∧ out.binFile.headD 0 ≤ 8
        ∧ out.binFile.length = 1 + (out.compressedBits / 8 + 1) :=
  ⟨by decide, c10_payload_shape [7] (by decide)⟩

end HuffmanCodec
